import Mathlib

set_option maxHeartbeats 1000000

/-
Shallow embedding of the LED-rendering scripts of this repository.

`KnightRider` models `knightrider3.1.py`: the ping-pong head position,
the per-row frame builder with its priority-guarded `try_set`, the
per-tick merge of row frames onto an all-off baseline performed by
`animate_rows`, and the consecutive-error counter that guards the
dispatch loop.  Python dicts are modelled as association lists in
insertion order (update-in-place for existing keys, append for new
keys), matching CPython dict semantics.

`DoubleMusic` models `doubleMusic.py`: the dB scaling helpers, the
per-band analyzer (`FrequencyBandAnalyzer.__init__` / `analyze`), the
beat detector (`BeatDetector.detect_beat`, with `time.time()` passed in
explicitly), and the windowing stage of `process_audio`.  Python floats
are modelled as real numbers.
-/

namespace KnightRider

/-- The color names of `COLOR_MAP` in `knightrider3.1.py`. -/
inductive ColorName where
  | off
  | trail4
  | trail3
  | trail2
  | trail1
  | main
deriving DecidableEq, Repr

/-- `COLOR_PRIORITY` from `knightrider3.1.py` lines 29-36. -/
def COLOR_PRIORITY : ColorName → Nat
  | ColorName.off => 0
  | ColorName.trail4 => 1
  | ColorName.trail3 => 2
  | ColorName.trail2 => 3
  | ColorName.trail1 => 4
  | ColorName.main => 5

/-- `compute_pingpong_pos(step, n)` from `knightrider3.1.py` lines 38-46.
`%` on `ℤ` is `Int.emod`, which agrees with Python `%` for a positive
modulus. -/
def compute_pingpong_pos (step : ℤ) (n : Nat) : ℤ :=
  if n ≤ 1 then 0
  else
    let period : ℤ := 2 * (n : ℤ) - 2
    let cyc := step % period
    if cyc < (n : ℤ) then cyc else period - cyc

/-- Python `frame.get(led)` on a dict modelled as an association list. -/
def dictGet (m : List (ℤ × ColorName)) (led : ℤ) : Option ColorName :=
  (m.find? (fun p => p.1 == led)).map (fun p => p.2)

/-- Python `frame[led] = c`: update in place when the key exists,
append otherwise (CPython dicts preserve insertion order). -/
def dictSet (m : List (ℤ × ColorName)) (led : ℤ) (c : ColorName) :
    List (ℤ × ColorName) :=
  if m.any (fun p => p.1 == led) then
    m.map (fun p => if p.1 == led then (led, c) else p)
  else
    m ++ [(led, c)]

/-- `try_set(idx_in_row, color_name)` from `knightrider3.1.py` lines 65-70:
bounds-check the row index, then write only if the slot is unset or the
new color has strictly higher priority. -/
def try_set (row : List ℤ) (frame : List (ℤ × ColorName)) (idx : ℤ)
    (c : ColorName) : List (ℤ × ColorName) :=
  if 0 ≤ idx ∧ idx < (row.length : ℤ) then
    let led := row.getD idx.toNat 0
    match dictGet frame led with
    | none => dictSet frame led c
    | some existing =>
        if COLOR_PRIORITY existing < COLOR_PRIORITY c then dictSet frame led c
        else frame
  else frame

/-- `build_frame_for_row(row, step)` from `knightrider3.1.py` lines 48-87:
head at the ping-pong position, four trails behind the head depending on
the direction of travel. -/
def build_frame_for_row (row : List ℤ) (step : ℤ) : List (ℤ × ColorName) :=
  let n := row.length
  let pos := compute_pingpong_pos step n
  let direction : ℤ :=
    if n ≤ 1 then 1
    else
      let prev_pos := compute_pingpong_pos (step - 1) n
      if prev_pos < pos then 1 else if pos < prev_pos then -1 else 1
  if direction = 1 then
    try_set row
      (try_set row
        (try_set row
          (try_set row (try_set row [] pos ColorName.main) (pos - 1)
            ColorName.trail1)
          (pos - 2) ColorName.trail2)
        (pos - 3) ColorName.trail3)
      (pos - 4) ColorName.trail4
  else
    try_set row
      (try_set row
        (try_set row
          (try_set row (try_set row [] pos ColorName.main) (pos + 1)
            ColorName.trail1)
          (pos + 2) ColorName.trail2)
        (pos + 3) ColorName.trail3)
      (pos + 4) ColorName.trail4

/-- The per-tick baseline of `animate_rows` (`knightrider3.1.py` line 107):
every known LED starts the tick as `'off'`.  Only the color name is
tracked; the rgb and alpha components of a `merged_updates` entry are
the fixed `COLOR_MAP` image of the name. -/
def tickBaseline (allLeds : List ℤ) : List (ℤ × ColorName) :=
  allLeds.map (fun led => (led, ColorName.off))

/-- One submission into `merged_updates` (`knightrider3.1.py` lines
112-116): read the current entry (default `'off'`) and overwrite only on
strictly higher priority. -/
def mergeSubmit (m : List (ℤ × ColorName)) (led : ℤ) (c : ColorName) :
    List (ℤ × ColorName) :=
  let curr := (dictGet m led).getD ColorName.off
  if COLOR_PRIORITY curr < COLOR_PRIORITY c then dictSet m led c else m

/-- One compositor tick of `animate_rows`: start from the all-off
baseline and fold all row-frame submissions through the priority merge.
The committed `merged_updates` dict is the result. -/
def tickCommit (allLeds : List ℤ) (subs : List (ℤ × ColorName)) :
    List (ℤ × ColorName) :=
  subs.foldl (fun m s => mergeSubmit m s.1 s.2) (tickBaseline allLeds)

/-- `max_errors` from `knightrider3.1.py` line 101. -/
def max_errors : Nat := 10

/-- Control flow of the dispatch loop in `animate_rows` lines 99-140,
driven by an oracle list giving each iteration's `batch_set_leds`
outcome.  Each loop iteration issues exactly one batch call; a success
resets `error_count` to `0`, a failure increments it and breaks out of
the loop once `error_count >= max_errors`.  The result counts the batch
calls issued before the loop stops (or the oracle list is exhausted). -/
def callsIssued : Nat → List Bool → Nat
  | _, [] => 0
  | ec, success :: rest =>
      1 + (if success then callsIssued 0 rest
           else if max_errors ≤ ec + 1 then 0
           else callsIssued (ec + 1) rest)

end KnightRider

namespace DoubleMusic

noncomputable section

/-- `BLOCKSIZE` from `doubleMusic.py` line 56. -/
def BLOCKSIZE : Nat := 2048

/-- `DECAY_FAST` from `doubleMusic.py` line 89. -/
def DECAY_FAST : ℝ := 0.7

/-- `DECAY_SLOW` from `doubleMusic.py` line 90. -/
def DECAY_SLOW : ℝ := 0.9

/-- `MIN_DB` from `doubleMusic.py` line 91. -/
def MIN_DB : ℝ := -80.0

/-- `MAX_DB` from `doubleMusic.py` line 92. -/
def MAX_DB : ℝ := -10.0

/-- `BEAT_HISTORY_SIZE` from `doubleMusic.py` line 95. -/
def BEAT_HISTORY_SIZE : Nat := 43

/-- `BEAT_THRESHOLD` from `doubleMusic.py` line 96. -/
def BEAT_THRESHOLD : ℝ := 1.5

/-- `BEAT_MIN_INTERVAL` from `doubleMusic.py` line 97. -/
def BEAT_MIN_INTERVAL : ℝ := 0.1

/-- `np.mean` on a list of floats. -/
def listMean (l : List ℝ) : ℝ := l.sum / l.length

/-- `np.std` (population standard deviation) on a list of floats. -/
def listStd (l : List ℝ) : ℝ :=
  Real.sqrt (listMean (l.map (fun x => (x - listMean l) ^ 2)))

/-- `mag_to_db` from `doubleMusic.py` lines 144-147. -/
def mag_to_db (mag : ℝ) : ℝ := 20.0 * Real.logb 10 (max mag 1e-12)

/-- `db_scale` from `doubleMusic.py` lines 150-156. -/
def db_scale (db : ℝ) : ℝ :=
  if db ≤ MIN_DB then 0
  else if MAX_DB ≤ db then 1
  else (db - MIN_DB) / (MAX_DB - MIN_DB)

/-- The mutable fields of a `FrequencyBandAnalyzer` instance
(`doubleMusic.py` lines 242-257); `sample_rate` is unused by `analyze`
and omitted. -/
structure BandAnalyzer where
  freq_min : ℝ
  freq_max : ℝ
  prev_level : ℝ
  decay : ℝ

/-- The decay chosen by `FrequencyBandAnalyzer.__init__`
(`doubleMusic.py` lines 248-257). -/
def bandDecay (freq_min freq_max : ℝ) : ℝ :=
  if freq_max < 200 then DECAY_SLOW
  else if 5000 < freq_min then DECAY_FAST
  else DECAY_SLOW + (DECAY_FAST - DECAY_SLOW) * ((freq_min - 200) / (5000 - 200))

/-- `FrequencyBandAnalyzer.__init__(freq_min, freq_max)`: initial level
is `0.0`. -/
def bandInit (freq_min freq_max : ℝ) : BandAnalyzer :=
  { freq_min := freq_min
    freq_max := freq_max
    prev_level := 0.0
    decay := bandDecay freq_min freq_max }

/-- `FrequencyBandAnalyzer.analyze(fft_data, freqs)` from
`doubleMusic.py` lines 259-289.  `fft_data` and `freqs` are the parallel
arrays produced by `np.fft.rfft` / `np.fft.rfftfreq` (equal length), so
`np.where` selection over `freqs` followed by indexing into `fft_data`
is the filter of their zip.  Returns the updated analyzer and the
returned level. -/
def analyze (a : BandAnalyzer) (fft_data freqs : List ℝ) : BandAnalyzer × ℝ :=
  let selected :=
    ((freqs.zip fft_data).filter
        (fun p => decide (a.freq_min ≤ p.1 ∧ p.1 ≤ a.freq_max))).map
      (fun p => p.2)
  if selected.isEmpty then
    let lvl := a.prev_level * a.decay
    ({ a with prev_level := lvl }, lvl)
  else
    let band_amplitude := listMean selected
    let band_amplitude2 := band_amplitude / ((fft_data.length : ℝ) * 2)
    let band_db := mag_to_db band_amplitude2
    let level := db_scale band_db
    let lvl := max level (a.prev_level * a.decay)
    ({ a with prev_level := lvl }, lvl)

/-- A sequence of `analyze` calls on one analyzer, keeping only the
evolving state. -/
def analyzeRun (a : BandAnalyzer) (inputs : List (List ℝ × List ℝ)) :
    BandAnalyzer :=
  inputs.foldl (fun st inp => (analyze st inp.1 inp.2).1) a

/-- The mutable fields of a `BeatDetector` instance (`doubleMusic.py`
lines 200-203). -/
structure BeatState where
  bass_history : List ℝ
  last_beat_time : ℝ
  beat_strength : ℝ

/-- `BeatDetector.__init__`: empty history, `last_beat_time = 0`,
`beat_strength = 0.0`. -/
def beatInit : BeatState :=
  { bass_history := [], last_beat_time := 0, beat_strength := 0.0 }

/-- `deque(maxlen=m).append(x)`: append and drop from the front down to
`m` elements. -/
def dequePush (m : Nat) (l : List ℝ) (x : ℝ) : List ℝ :=
  let l2 := l ++ [x]
  l2.drop (l2.length - m)

/-- `BeatDetector.detect_beat(bass_energy)` from `doubleMusic.py` lines
205-236, with the wall clock `time.time()` passed in as `now`.  Returns
the updated state, `is_beat`, and the returned `beat_strength`. -/
def detect_beat (s : BeatState) (bass_energy now : ℝ) :
    BeatState × Bool × ℝ :=
  let hist := dequePush BEAT_HISTORY_SIZE s.bass_history bass_energy
  if hist.length < 10 then
    ({ s with bass_history := hist }, false, 0.0)
  else
    let avg := listMean hist
    let sd := listStd hist
    let threshold := avg + sd * BEAT_THRESHOLD
    if threshold < bass_energy ∧ BEAT_MIN_INTERVAL < now - s.last_beat_time then
      let strengthSet := min ((bass_energy - avg) / (threshold - avg)) 2.0
      let strength := strengthSet * 0.8
      ({ bass_history := hist, last_beat_time := now,
         beat_strength := strength }, true, strength)
    else
      let strength := s.beat_strength * 0.8
      ({ s with bass_history := hist, beat_strength := strength },
       false, strength)

/-- The `is_beat` outputs of a sequence of `detect_beat` calls, each
input paired with its call time. -/
def runDetect : BeatState → List (ℝ × ℝ) → List Bool
  | _, [] => []
  | s, (e, t) :: rest =>
      let r := detect_beat s e t
      r.2.1 :: runDetect r.1 rest

/-- The state after a sequence of `detect_beat` calls. -/
def runState (s : BeatState) (inputs : List (ℝ × ℝ)) : BeatState :=
  inputs.foldl (fun st p => (detect_beat st p.1 p.2).1) s

/-- Detector states reachable from a freshly constructed `BeatDetector`
by some sequence of `detect_beat` calls. -/
def ReachableBeat (s : BeatState) : Prop :=
  ∃ inputs, s = runState beatInit inputs

/-- `np.hanning(n)`: `0.5 - 0.5*cos(2*pi*k/(n-1))` for `k = 0..n-1`,
with `np.hanning(1) = [1.0]`. -/
def hanning (n : Nat) : List ℝ :=
  if n = 1 then [1]
  else
    (List.range n).map
      (fun (k : ℕ) =>
        0.5 - 0.5 * Real.cos (2 * Real.pi * (k : ℝ) / ((n : ℝ) - 1)))

/-- The windowing stage of `process_audio` (`doubleMusic.py` lines
424-426 and the identical lines of `music.py`): the Hann window is built
with `np.hanning(len(audio_data))` and multiplied elementwise into the
block. -/
def process_audio_windowed (block : List ℝ) : List ℝ :=
  List.zipWith (fun x w => x * w) block (hanning block.length)

/-- Output length of `np.fft.rfft` on an input of length `n`. -/
def rfft_bins (n : Nat) : Nat := n / 2 + 1

end

end DoubleMusic

namespace KnightRider

theorem dictGet_singleton (l : ℤ) (x : ColorName) :
    dictGet [(l, x)] l = some x := by
  simp [dictGet, List.find?]

theorem dictSet_singleton (l : ℤ) (x c : ColorName) :
    dictSet [(l, x)] l c = [(l, c)] := by
  simp [dictSet]

theorem mergeSubmit_singleton (l : ℤ) (x c : ColorName) :
    mergeSubmit [(l, x)] l c =
      [(l, if COLOR_PRIORITY x < COLOR_PRIORITY c then c else x)] := by
  unfold mergeSubmit
  rw [dictGet_singleton]
  by_cases h : COLOR_PRIORITY x < COLOR_PRIORITY c
  · simp [h, dictSet_singleton]
  · simp [h]

/-- C1: merging two submissions with distinct priorities onto the same
LED within one tick commits the higher-priority color in either
submission order, and a submission never overwrites an entry of equal
or higher priority (equal priority keeps the first writer). -/
theorem compositor_priority_merge (l : ℤ) (c1 c2 : ColorName)
    (h : COLOR_PRIORITY c1 < COLOR_PRIORITY c2) :
    dictGet (tickCommit [l] [(l, c1), (l, c2)]) l = some c2 ∧
    dictGet (tickCommit [l] [(l, c2), (l, c1)]) l = some c2 ∧
    ∀ (m : List (ℤ × ColorName)) (c : ColorName),
      COLOR_PRIORITY c ≤ COLOR_PRIORITY ((dictGet m l).getD ColorName.off) →
      mergeSubmit m l c = m := by
  have hbase : tickBaseline [l] = [(l, ColorName.off)] := rfl
  have hstep1 : mergeSubmit [(l, ColorName.off)] l c1 = [(l, c1)] := by
    rw [mergeSubmit_singleton]
    cases c1 <;> simp [COLOR_PRIORITY]
  have hstep2 : mergeSubmit [(l, ColorName.off)] l c2 = [(l, c2)] := by
    rw [mergeSubmit_singleton]
    cases c2 <;> simp_all [COLOR_PRIORITY]
  refine ⟨?_, ?_, ?_⟩
  · show dictGet
      (mergeSubmit (mergeSubmit (tickBaseline [l]) l c1) l c2) l = some c2
    rw [hbase, hstep1, mergeSubmit_singleton, if_pos h, dictGet_singleton]
  · show dictGet
      (mergeSubmit (mergeSubmit (tickBaseline [l]) l c2) l c1) l = some c2
    rw [hbase, hstep2, mergeSubmit_singleton, if_neg (by omega),
      dictGet_singleton]
  · intro m c hc
    unfold mergeSubmit
    rw [if_neg (Nat.not_lt.mpr hc)]

theorem compositor_priority_merge_witness :
    COLOR_PRIORITY ColorName.trail1 < COLOR_PRIORITY ColorName.main ∧
    dictGet (tickCommit [3] [(3, ColorName.trail1), (3, ColorName.main)]) 3 =
      some ColorName.main :=
  ⟨by decide,
   (compositor_priority_merge 3 ColorName.trail1 ColorName.main (by decide)).1⟩

theorem callsIssued_replicate_false (k : Nat) :
    ∀ (ec : Nat) (rest : List Bool), 1 ≤ k → ec + k = max_errors →
      callsIssued ec (List.replicate k false ++ rest) = k := by
  induction k with
  | zero => intro ec rest hk; omega
  | succ k ih =>
      intro ec rest hk he
      rw [List.replicate_succ, List.cons_append, callsIssued]
      rcases Nat.eq_zero_or_pos k with hk0 | hk1
      · subst hk0
        have hec : max_errors ≤ ec + 1 := by omega
        simp [hec]
      · have hec : ¬ max_errors ≤ ec + 1 := by omega
        simp only [Bool.false_eq_true, if_false, hec]
        rw [ih (ec + 1) rest hk1 (by omega)]
        omega

/-- C3: the dispatch loop of `animate_rows` issues exactly `max_errors`
batch calls when every call fails, and then stops issuing calls no
matter what outcomes would follow; a single successful call resets the
consecutive-error count to zero. -/
theorem dispatch_degrade_policy :
    (∀ rest : List Bool,
        callsIssued 0 (List.replicate max_errors false ++ rest) = max_errors) ∧
    (∀ (ec : Nat) (rest : List Bool),
        callsIssued ec (true :: rest) = 1 + callsIssued 0 rest) := by
  constructor
  · intro rest
    exact callsIssued_replicate_false max_errors 0 rest (by decide) (by omega)
  · intro ec rest
    rw [callsIssued]
    simp

theorem tickBaseline_get (allLeds : List ℤ) (led : ℤ) (h : led ∈ allLeds) :
    dictGet (tickBaseline allLeds) led = some ColorName.off := by
  induction allLeds with
  | nil => cases h
  | cons a rest ih =>
      rcases List.mem_cons.mp h with rfl | hmem
      · simp [tickBaseline, dictGet, List.find?]
      · by_cases ha : a = led
        · subst ha
          simp [tickBaseline, dictGet, List.find?]
        · have := ih hmem
          simp only [tickBaseline, List.map_cons, dictGet, List.find?] at this ⊢
          rw [show ((a, ColorName.off).1 == led) = false by
            simpa using ha]
          exact this

/-- C9: a compositor tick of `animate_rows` with zero submissions
commits a frame whose entry for every known LED is the off color. -/
theorem empty_tick_all_off (allLeds : List ℤ) (led : ℤ) (h : led ∈ allLeds) :
    dictGet (tickCommit allLeds []) led = some ColorName.off := by
  simpa [tickCommit] using tickBaseline_get allLeds led h

theorem empty_tick_all_off_witness :
    (1 : ℤ) ∈ ([1, 2] : List ℤ) ∧
    dictGet (tickCommit [1, 2] []) 1 = some ColorName.off :=
  ⟨by decide, empty_tick_all_off [1, 2] 1 (by decide)⟩

theorem dictSet_keys {m : List (ℤ × ColorName)} {led : ℤ} {c : ColorName}
    {q : ℤ × ColorName} (hq : q ∈ dictSet m led c) : q.1 = led ∨ q ∈ m := by
  unfold dictSet at hq
  split at hq
  · rcases List.mem_map.mp hq with ⟨p, hp, hpq⟩
    by_cases h : (p.1 == led) = true
    · rw [if_pos h] at hpq
      left
      rw [← hpq]
    · rw [if_neg h] at hpq
      right
      rw [← hpq]
      exact hp
  · rcases List.mem_append.mp hq with h | h
    · right
      exact h
    · left
      simp only [List.mem_singleton] at h
      rw [h]

theorem try_set_keys {row : List ℤ} {frame : List (ℤ × ColorName)} {idx : ℤ}
    {c : ColorName} (hf : ∀ q ∈ frame, q.1 ∈ row) :
    ∀ q ∈ try_set row frame idx c, q.1 ∈ row := by
  intro q hq
  unfold try_set at hq
  split at hq
  case isTrue hb =>
    have hidx : idx.toNat < row.length := by omega
    have hled : row.getD idx.toNat 0 ∈ row := by
      rw [List.getD_eq_getElem row 0 hidx]
      exact List.getElem_mem hidx
    dsimp only at hq
    split at hq
    · rcases dictSet_keys hq with h | h
      · rw [h]
        exact hled
      · exact hf q h
    · split at hq
      · rcases dictSet_keys hq with h | h
        · rw [h]
          exact hled
        · exact hf q h
      · exact hf q hq
  case isFalse => exact hf q hq

/-- C10: for every row of length at least 1 and every integer step the
ping-pong head position lies in `[0, n-1]`, and every key of the frame
built by `build_frame_for_row` is an LED identifier occurring in the
row. -/
theorem pingpong_bounds_and_frame_keys :
    (∀ (step : ℤ) (n : Nat), 1 ≤ n →
        0 ≤ compute_pingpong_pos step n ∧
        compute_pingpong_pos step n ≤ (n : ℤ) - 1) ∧
    (∀ (row : List ℤ) (step : ℤ) (q : ℤ × ColorName),
        q ∈ build_frame_for_row row step → q.1 ∈ row) := by
  constructor
  · intro step n hn
    unfold compute_pingpong_pos
    by_cases h1 : n ≤ 1
    · rw [if_pos h1]
      constructor <;> [exact le_refl 0; omega]
    · rw [if_neg h1]
      have hper : (0 : ℤ) < 2 * (n : ℤ) - 2 := by omega
      have h0 : 0 ≤ step % (2 * (n : ℤ) - 2) :=
        Int.emod_nonneg step (by omega)
      have hlt : step % (2 * (n : ℤ) - 2) < 2 * (n : ℤ) - 2 :=
        Int.emod_lt_of_pos step hper
      dsimp only
      split <;> omega
  · intro row step q hq
    have h0 : ∀ p ∈ ([] : List (ℤ × ColorName)), p.1 ∈ row := by
      intro p hp
      cases hp
    unfold build_frame_for_row at hq
    dsimp only at hq
    repeat' split at hq
    all_goals
      exact try_set_keys
        (try_set_keys (try_set_keys (try_set_keys (try_set_keys h0)))) q hq

theorem pingpong_bounds_and_frame_keys_witness :
    (1 ≤ 3 ∧
      (0 ≤ compute_pingpong_pos 5 3 ∧ compute_pingpong_pos 5 3 ≤ (3 : ℤ) - 1)) ∧
    ((7, ColorName.main) ∈ build_frame_for_row [7, 8] 0 ∧ (7 : ℤ) ∈ [7, 8]) :=
  ⟨⟨by decide, pingpong_bounds_and_frame_keys.1 5 3 (by decide)⟩,
   ⟨by decide, pingpong_bounds_and_frame_keys.2 [7, 8] 0 (7, ColorName.main)
      (by decide)⟩⟩

end KnightRider

namespace DoubleMusic

theorem db_scale_mem (db : ℝ) : 0 ≤ db_scale db ∧ db_scale db ≤ 1 := by
  unfold db_scale MIN_DB MAX_DB
  split
  · norm_num
  · split
    · norm_num
    · next h1 h2 =>
      rw [not_le] at h1 h2
      constructor
      · apply div_nonneg <;> [linarith; norm_num]
      · rw [div_le_one (by norm_num)]
        linarith

theorem bandDecay_bounds (freq_min freq_max : ℝ) (h : 0 ≤ freq_min) :
    DECAY_FAST ≤ bandDecay freq_min freq_max ∧
    bandDecay freq_min freq_max ≤ DECAY_SLOW + (DECAY_SLOW - DECAY_FAST) / 24 := by
  unfold bandDecay DECAY_FAST DECAY_SLOW
  split
  · norm_num
  · split
    · norm_num
    · next h1 h2 =>
      rw [not_lt] at h2
      constructor <;> linarith

/-- C4 counterexample: the band `(150, 200)` of `FREQ_BANDS` has
`freq_min < 200 <= freq_max`, takes the interpolation branch with a
negative interpolation parameter, and receives a decay strictly above
`DECAY_SLOW`: the constructed decay is `433/480 ~ 0.9021`. -/
theorem bandDecay_straddling_exceeds_slow :
    bandDecay 150 200 = 433 / 480 ∧ DECAY_SLOW < bandDecay 150 200 ∧
    (bandInit 150 200).decay = 433 / 480 := by
  have h : bandDecay 150 200 = 433 / 480 := by
    unfold bandDecay DECAY_FAST DECAY_SLOW
    rw [if_neg (by norm_num), if_neg (by norm_num)]
    norm_num
  refine ⟨h, ?_, ?_⟩
  · rw [h]
    unfold DECAY_SLOW
    norm_num
  · rw [show (bandInit 150 200).decay = bandDecay 150 200 from rfl, h]

/-- C4 (amended): for every configuration with `0 <= freqMin` the
constructed decay lies in `[DECAY_FAST, DECAY_SLOW + (DECAY_SLOW -
DECAY_FAST)/24]`; the tighter interval `[DECAY_FAST, DECAY_SLOW]`
claimed by the spec holds whenever `freqMax < 200` or `200 <= freqMin`,
but not for bands straddling 200 Hz such as `(150, 200)`. -/
theorem bandDecay_range_amended (freq_min freq_max : ℝ) (h0 : 0 ≤ freq_min) :
    (DECAY_FAST ≤ (bandInit freq_min freq_max).decay ∧
      (bandInit freq_min freq_max).decay ≤
        DECAY_SLOW + (DECAY_SLOW - DECAY_FAST) / 24) ∧
    (freq_max < 200 ∨ 200 ≤ freq_min →
      DECAY_FAST ≤ (bandInit freq_min freq_max).decay ∧
      (bandInit freq_min freq_max).decay ≤ DECAY_SLOW) := by
  have hd : (bandInit freq_min freq_max).decay = bandDecay freq_min freq_max :=
    rfl
  rw [hd]
  refine ⟨bandDecay_bounds freq_min freq_max h0, ?_⟩
  intro hside
  unfold bandDecay DECAY_FAST DECAY_SLOW
  split
  · norm_num
  · split
    · norm_num
    · next h1 h2 =>
      rw [not_lt] at h1 h2
      have hmin : 200 ≤ freq_min := by
        rcases hside with hc | hc
        · linarith
        · exact hc
      constructor <;> linarith

theorem bandDecay_range_amended_witness :
    (0 : ℝ) ≤ 150 ∧
    (DECAY_FAST ≤ (bandInit 150 200).decay ∧
      (bandInit 150 200).decay ≤ DECAY_SLOW + (DECAY_SLOW - DECAY_FAST) / 24) :=
  ⟨by norm_num, (bandDecay_range_amended 150 200 (by norm_num)).1⟩

theorem analyze_preserves_unit (a : BandAnalyzer) (fft freqs : List ℝ)
    (hd0 : 0 ≤ a.decay) (hd1 : a.decay ≤ 1)
    (hp0 : 0 ≤ a.prev_level) (hp1 : a.prev_level ≤ 1) :
    (analyze a fft freqs).1.decay = a.decay ∧
    0 ≤ (analyze a fft freqs).1.prev_level ∧
    (analyze a fft freqs).1.prev_level ≤ 1 := by
  unfold analyze
  dsimp only
  split
  · refine ⟨rfl, ?_, ?_⟩
    · exact mul_nonneg hp0 hd0
    · show a.prev_level * a.decay ≤ 1
      nlinarith
  · refine ⟨rfl, ?_, ?_⟩
    · exact le_trans (db_scale_mem _).1 (le_max_left _ _)
    · show max (db_scale _) (a.prev_level * a.decay) ≤ 1
      apply max_le (db_scale_mem _).2
      nlinarith

/-- C2: a band analyzer constructed from any configuration with
nonnegative `freq_min` and run from its initial level `0.0` through any
sequence of `analyze` calls always has its stored level in `[0, 1]`. -/
theorem band_level_unit_interval (freq_min freq_max : ℝ) (h : 0 ≤ freq_min)
    (inputs : List (List ℝ × List ℝ)) :
    0 ≤ (analyzeRun (bandInit freq_min freq_max) inputs).prev_level ∧
    (analyzeRun (bandInit freq_min freq_max) inputs).prev_level ≤ 1 := by
  have hinv : ∀ (l : List (List ℝ × List ℝ)) (a : BandAnalyzer),
      0 ≤ a.decay → a.decay ≤ 1 → 0 ≤ a.prev_level → a.prev_level ≤ 1 →
      0 ≤ (analyzeRun a l).prev_level ∧ (analyzeRun a l).prev_level ≤ 1 := by
    intro l
    induction l with
    | nil =>
        intro a _ _ h3 h4
        exact ⟨h3, h4⟩
    | cons x xs ih =>
        intro a h1 h2 h3 h4
        have hstep := analyze_preserves_unit a x.1 x.2 h1 h2 h3 h4
        have hrun : analyzeRun a (x :: xs) = analyzeRun (analyze a x.1 x.2).1 xs :=
          rfl
        rw [hrun]
        exact ih _ (hstep.1 ▸ h1) (hstep.1 ▸ h2) hstep.2.1 hstep.2.2
  have hdec := bandDecay_bounds freq_min freq_max h
  have hd : (bandInit freq_min freq_max).decay = bandDecay freq_min freq_max :=
    rfl
  apply hinv
  · rw [hd]
    have : (0.7 : ℝ) ≤ bandDecay freq_min freq_max := by
      have := hdec.1
      unfold DECAY_FAST at this
      linarith
    linarith
  · rw [hd]
    have := hdec.2
    unfold DECAY_FAST DECAY_SLOW at this
    linarith
  · show (0 : ℝ) ≤ (bandInit freq_min freq_max).prev_level
    norm_num [bandInit]
  · show (bandInit freq_min freq_max).prev_level ≤ 1
    norm_num [bandInit]

theorem band_level_unit_interval_witness :
    (0 : ℝ) ≤ 20 ∧
    (0 ≤ (analyzeRun (bandInit 20 60) []).prev_level ∧
      (analyzeRun (bandInit 20 60) []).prev_level ≤ 1) :=
  ⟨by norm_num, band_level_unit_interval 20 60 (by norm_num) []⟩

/-- C6: when no frequency bin of the spectrum lies inside
`[freq_min, freq_max]`, `analyze` performs pure decay: the stored level
and the returned value are exactly `prev_level * decay`. -/
theorem analyze_empty_band_pure_decay (a : BandAnalyzer) (fft freqs : List ℝ)
    (h : ∀ f ∈ freqs, ¬(a.freq_min ≤ f ∧ f ≤ a.freq_max)) :
    analyze a fft freqs =
      ({ a with prev_level := a.prev_level * a.decay },
       a.prev_level * a.decay) := by
  have hsel : (freqs.zip fft).filter
      (fun p => decide (a.freq_min ≤ p.1 ∧ p.1 ≤ a.freq_max)) = [] := by
    rw [List.filter_eq_nil_iff]
    intro p hp
    have hmem := List.of_mem_zip hp
    simpa using h p.1 hmem.1
  unfold analyze
  rw [hsel]
  simp

theorem analyze_empty_band_pure_decay_witness :
    analyze { freq_min := 20, freq_max := 60, prev_level := 1, decay := 0.9 }
        [] [] =
      ({ freq_min := 20, freq_max := 60, prev_level := 1 * 0.9, decay := 0.9 },
       1 * 0.9) :=
  analyze_empty_band_pure_decay
    { freq_min := 20, freq_max := 60, prev_level := 1, decay := 0.9 } [] []
    (by simp)

theorem dequePush_length (m : Nat) (l : List ℝ) (x : ℝ) :
    (dequePush m l x).length = min (l.length + 1) m := by
  simp [dequePush]
  omega

theorem runDetect_warmup : ∀ (inputs : List (ℝ × ℝ)) (s : BeatState),
    s.bass_history.length + inputs.length ≤ 9 →
    ∀ b ∈ runDetect s inputs, b = false := by
  intro inputs
  induction inputs with
  | nil =>
      intro s _ b hb
      cases hb
  | cons p rest ih =>
      intro s hlen b hb
      obtain ⟨e, t⟩ := p
      have hlt : (dequePush BEAT_HISTORY_SIZE s.bass_history e).length < 10 := by
        rw [dequePush_length]
        simp only [List.length_cons] at hlen
        unfold BEAT_HISTORY_SIZE
        omega
      rw [runDetect] at hb
      unfold detect_beat at hb
      rw [if_pos hlt] at hb
      dsimp only at hb
      rcases List.mem_cons.mp hb with rfl | hmem
      · rfl
      · apply ih _ _ b hmem
        simp only [List.length_cons] at hlen
        simp only [dequePush_length]
        unfold BEAT_HISTORY_SIZE
        omega

/-- C5: a freshly constructed `BeatDetector` reports `is_beat = false`
on each of its first 9 `detect_beat` calls, whatever the bass energies
and call times are. -/
theorem beat_warmup_no_beat (inputs : List (ℝ × ℝ))
    (h : inputs.length ≤ 9) :
    ∀ b ∈ runDetect beatInit inputs, b = false :=
  runDetect_warmup inputs beatInit (by simpa [beatInit] using h)

theorem beat_warmup_no_beat_witness :
    ([((5 : ℝ), (0 : ℝ))] : List (ℝ × ℝ)).length ≤ 9 ∧
    ∀ b ∈ runDetect beatInit [((5 : ℝ), (0 : ℝ))], b = false :=
  ⟨by simp, beat_warmup_no_beat [((5 : ℝ), (0 : ℝ))] (by simp)⟩

theorem beat_step_invariant (s : BeatState) (e t : ℝ)
    (h : s.bass_history.length < 10 → s.beat_strength = 0) :
    (detect_beat s e t).1.bass_history.length < 10 →
    (detect_beat s e t).1.beat_strength = 0 := by
  unfold detect_beat
  dsimp only
  split
  · next hlt =>
    intro _
    show s.beat_strength = 0
    apply h
    rw [dequePush_length] at hlt
    unfold BEAT_HISTORY_SIZE at hlt
    omega
  · next hge =>
    split
    · intro hcon
      exact absurd hcon hge
    · intro hcon
      exact absurd hcon hge

theorem reachable_strength_zero (s : BeatState) (h : ReachableBeat s) :
    s.bass_history.length < 10 → s.beat_strength = 0 := by
  obtain ⟨inputs, rfl⟩ := h
  suffices H : ∀ (l : List (ℝ × ℝ)) (st : BeatState),
      (st.bass_history.length < 10 → st.beat_strength = 0) →
      ((runState st l).bass_history.length < 10 →
        (runState st l).beat_strength = 0) by
    exact H inputs beatInit (fun _ => by norm_num [beatInit])
  intro l
  induction l with
  | nil =>
      intro st hst
      exact hst
  | cons p rest ih =>
      intro st hst
      have hrun : runState st (p :: rest) =
          runState (detect_beat st p.1 p.2).1 rest := rfl
      rw [hrun]
      exact ih _ (beat_step_invariant st p.1 p.2 hst)

/-- C8: on every `detect_beat` call on a reachable detector state, the
returned strength equals the stored strength after the call; a call
that declares no beat returns exactly `0.8` times the strength held
before the call, and a call that declares a beat returns `0.8` times
the freshly computed beat strength. -/
theorem beat_strength_decay_on_call (s : BeatState) (hs : ReachableBeat s)
    (e t : ℝ) :
    (detect_beat s e t).2.2 = (detect_beat s e t).1.beat_strength ∧
    ((detect_beat s e t).2.1 = false →
      (detect_beat s e t).2.2 = 0.8 * s.beat_strength) ∧
    ((detect_beat s e t).2.1 = true →
      (detect_beat s e t).2.2 =
        0.8 * min ((e - listMean (dequePush BEAT_HISTORY_SIZE s.bass_history e)) /
          ((listMean (dequePush BEAT_HISTORY_SIZE s.bass_history e) +
              listStd (dequePush BEAT_HISTORY_SIZE s.bass_history e) *
                BEAT_THRESHOLD) -
            listMean (dequePush BEAT_HISTORY_SIZE s.bass_history e))) 2) := by
  have hinv := reachable_strength_zero s hs
  unfold detect_beat
  dsimp only
  split
  · next hlt =>
    have h0 : s.beat_strength = 0 := by
      apply hinv
      rw [dequePush_length] at hlt
      unfold BEAT_HISTORY_SIZE at hlt
      omega
    refine ⟨by rw [h0]; norm_num, fun _ => by rw [h0]; norm_num, fun hcon => ?_⟩
    exact absurd hcon (by simp)
  · split
    · refine ⟨rfl, fun hcon => absurd hcon (by simp), fun _ => ?_⟩
      show min _ 2.0 * 0.8 = 0.8 * min _ 2
      norm_num [mul_comm]
    · refine ⟨rfl, fun _ => mul_comm _ _, fun hcon => absurd hcon (by simp)⟩

theorem beat_strength_decay_on_call_witness :
    (detect_beat beatInit 5 1).2.2 = (detect_beat beatInit 5 1).1.beat_strength ∧
    ((detect_beat beatInit 5 1).2.1 = false →
      (detect_beat beatInit 5 1).2.2 = 0.8 * beatInit.beat_strength) ∧
    ((detect_beat beatInit 5 1).2.1 = true →
      (detect_beat beatInit 5 1).2.2 =
        0.8 * min ((5 - listMean (dequePush BEAT_HISTORY_SIZE
            beatInit.bass_history 5)) /
          ((listMean (dequePush BEAT_HISTORY_SIZE beatInit.bass_history 5) +
              listStd (dequePush BEAT_HISTORY_SIZE beatInit.bass_history 5) *
                BEAT_THRESHOLD) -
            listMean (dequePush BEAT_HISTORY_SIZE beatInit.bass_history 5)))
          2) :=
  beat_strength_decay_on_call beatInit ⟨[], rfl⟩ 5 1

theorem hanning_length (n : Nat) : (hanning n).length = n := by
  unfold hanning
  split
  · next h =>
    rw [h]
    rfl
  · rw [List.length_map, List.length_range]

/-- C7 counterexample: a delivered block of length 4 is windowed with a
Hann window of length 4, not of the configured `BLOCKSIZE = 2048`:
`process_audio` never pads or truncates the block, so the window length
and FFT size follow the delivered length instead of staying fixed. -/
theorem window_length_not_fixed :
    (hanning (List.length ([1, 1, 1, 1] : List ℝ))).length = 4 ∧
    (process_audio_windowed ([1, 1, 1, 1] : List ℝ)).length = 4 ∧
    (4 : Nat) ≠ BLOCKSIZE := by
  refine ⟨?_, ?_, by decide⟩
  · rw [hanning_length]
    rfl
  · unfold process_audio_windowed
    rw [List.length_zipWith, hanning_length]
    rfl

/-- C7 (amended): the spectral stage never rejects a block of any
length, but instead of zero-padding or truncating to `BLOCKSIZE` it
sizes the Hann window and the FFT to the delivered block's own length:
the window has `len(block)` entries, the windowed block keeps
`len(block)` samples, and the real FFT would produce
`len(block)/2 + 1` bins. -/
theorem window_sized_to_block (block : List ℝ) :
    (hanning block.length).length = block.length ∧
    (process_audio_windowed block).length = block.length ∧
    rfft_bins block.length = block.length / 2 + 1 := by
  refine ⟨hanning_length _, ?_, rfl⟩
  unfold process_audio_windowed
  rw [List.length_zipWith, hanning_length, min_self]

end DoubleMusic
